import Mathlib

/-!
Shallow embedding of the simulation core of `rust-cubes-demo`
(`src/game/cube.rs`, `src/util/compare.rs`), with the pieces of the
`cgmath` vector-math library the core calls into.

Modelling conventions:
* `f32` is modelled as `ℝ` (exact real arithmetic); `sqrt` is `Real.sqrt`
  and `powf` is real exponentiation (`Real.rpow`).
* `StdRng` is modelled as a deterministic stream of draws (`Rng`): a
  function from draw index to the value `next_f32` returns, plus the
  index of the next draw.
* Rust vector indexing/updating is modelled with `List.getD`/`List.set`;
  every claim below only exercises in-bounds indices.
* `u32`/`usize` arithmetic is modelled on `ℕ` (the quantities involved,
  `subdivide_count` powers and vector lengths, do not overflow at the
  program's inputs).
-/

namespace Cubes

/-- `cgmath::Vector3<f32>` (also used for `Point3<f32>`). -/
@[ext]
structure Vec3 where
  x : ℝ
  y : ℝ
  z : ℝ

namespace Vec3

def add_v (a b : Vec3) : Vec3 := ⟨a.x + b.x, a.y + b.y, a.z + b.z⟩

def sub_v (a b : Vec3) : Vec3 := ⟨a.x - b.x, a.y - b.y, a.z - b.z⟩

def neg (a : Vec3) : Vec3 := ⟨-a.x, -a.y, -a.z⟩

def mul_s (a : Vec3) (k : ℝ) : Vec3 := ⟨a.x * k, a.y * k, a.z * k⟩

noncomputable def div_s (a : Vec3) (k : ℝ) : Vec3 := ⟨a.x / k, a.y / k, a.z / k⟩

def add_s (a : Vec3) (k : ℝ) : Vec3 := ⟨a.x + k, a.y + k, a.z + k⟩

def dot (a b : Vec3) : ℝ := a.x * b.x + a.y * b.y + a.z * b.z

def cross (a b : Vec3) : Vec3 :=
  ⟨a.y * b.z - a.z * b.y, a.z * b.x - a.x * b.z, a.x * b.y - a.y * b.x⟩

/-- `cgmath` `EuclideanVector::length`: `self.dot(self).sqrt()`. -/
noncomputable def length (a : Vec3) : ℝ := Real.sqrt (a.dot a)

/-- `cgmath` `Vector::lerp`: `self + (other - self) * amount`
(`lerp_self` assigns this back in place). -/
def lerp (a b : Vec3) (amount : ℝ) : Vec3 := a.add_v ((b.sub_v a).mul_s amount)

/-- `Vector3::from_value(k)`. -/
def from_value (k : ℝ) : Vec3 := ⟨k, k, k⟩

def zero : Vec3 := ⟨0, 0, 0⟩

end Vec3

/-- `cgmath::Quaternion<f32>`: scalar part `s` and vector part `v`. -/
@[ext]
structure Quat where
  s : ℝ
  v : Vec3

namespace Quat

/-- Hamilton product `self.mul_q(other)`. -/
def mul_q (a b : Quat) : Quat :=
  ⟨a.s * b.s - a.v.x * b.v.x - a.v.y * b.v.y - a.v.z * b.v.z,
   ⟨a.s * b.v.x + a.v.x * b.s + a.v.y * b.v.z - a.v.z * b.v.y,
    a.s * b.v.y + a.v.y * b.s + a.v.z * b.v.x - a.v.x * b.v.z,
    a.s * b.v.z + a.v.z * b.s + a.v.x * b.v.y - a.v.y * b.v.x⟩⟩

def add_q (a b : Quat) : Quat := ⟨a.s + b.s, a.v.add_v b.v⟩

def mul_s (a : Quat) (k : ℝ) : Quat := ⟨a.s * k, a.v.mul_s k⟩

noncomputable def div_s (a : Quat) (k : ℝ) : Quat := ⟨a.s / k, a.v.div_s k⟩

def conjugate (a : Quat) : Quat := ⟨a.s, a.v.neg⟩

/-- `magnitude2`: squared length `s*s + v.dot(v)`. -/
def magnitude2 (a : Quat) : ℝ := a.s * a.s + a.v.dot a.v

/-- `magnitude`: `magnitude2.sqrt()`. -/
noncomputable def magnitude (a : Quat) : ℝ := Real.sqrt a.magnitude2

/-- `normalize`: `self.mul_s(1 / self.magnitude())`. -/
noncomputable def normalize (a : Quat) : Quat := a.mul_s (1 / a.magnitude)

/-- `Rotation::invert` for quaternions: `self.conjugate().div_s(self.magnitude2())`. -/
noncomputable def invert (a : Quat) : Quat := a.conjugate.div_s a.magnitude2

/-- `nlerp(other, amount)`: `self.mul_s(1 - amount).add_q(other.mul_s(amount)).normalize()`. -/
noncomputable def nlerp (a b : Quat) (amount : ℝ) : Quat :=
  ((a.mul_s (1 - amount)).add_q (b.mul_s amount)).normalize

def from_sv (s : ℝ) (v : Vec3) : Quat := ⟨s, v⟩

def identity : Quat := ⟨1, ⟨0, 0, 0⟩⟩

/-- `cgmath` quaternion rotation of a vector (`mul_v`, used by
`rotate_vector` and `rotate_point`): `t = v_q × v + v * s`;
result `= (v_q × t) * 2 + v`. For a unit quaternion this is `q v q⁻¹`. -/
def mul_v (q : Quat) (v : Vec3) : Vec3 :=
  let tmp := (q.v.cross v).add_v (v.mul_s q.s)
  ((q.v.cross tmp).mul_s 2).add_v v

end Quat

/-- `cgmath::Ray3<f32>`. -/
@[ext]
structure Ray where
  origin : Vec3
  direction : Vec3

/-- `cgmath::Plane<f32>`: the plane `n · p = d`. -/
structure Plane where
  n : Vec3
  d : ℝ

/-- `cgmath` ray/plane intersection: solve `n · (origin + t*direction) = d`;
no intersection for a parallel ray or a negative parameter `t`.
(In the caller the six planes come in `±n` pairs with equal `d`, so the
set of candidate points is independent of the sign convention for `d`.) -/
noncomputable def planeRayIntersection (p : Plane) (r : Ray) : Option Vec3 :=
  if p.n.dot r.direction = 0 then none
  else
    let t := (p.d - p.n.dot r.origin) / p.n.dot r.direction
    if t < 0 then none
    else some (r.origin.add_v (r.direction.mul_s t))

/-- `std::rand::StdRng`, modelled as a deterministic stream of `next_f32`
draws: `seq k` is the `k`-th value drawn, `idx` the next draw's index. -/
structure Rng where
  seq : ℕ → ℝ
  idx : ℕ

namespace Rng

def next_f32 (g : Rng) : ℝ × Rng := (g.seq g.idx, ⟨g.seq, g.idx + 1⟩)

/-- `rand(rng)` inside `Subcube::hurl`: `rng.next_f32() * 2.0 - 1.0`. -/
def rand (g : Rng) : ℝ × Rng :=
  let p := g.next_f32
  (p.1 * 2 - 1, p.2)

/-- `random_vector3(rng)`: three successive `rand` draws. -/
def random_vector3 (g : Rng) : Vec3 × Rng :=
  let px := g.rand
  let py := px.2.rand
  let pz := py.2.rand
  (⟨px.1, py.1, pz.1⟩, pz.2)

end Rng

/-- `Subcube` (`src/game/cube.rs`). -/
@[ext]
structure Subcube where
  segment : Vec3
  subcube_length : ℝ
  pos : Vec3
  orientation : Quat
  vel : Vec3
  angular_momentum : Vec3

namespace Subcube

/-- `Subcube::from_segment`. -/
def from_segment (segment : Vec3) (subcube_length : ℝ) : Subcube :=
  { segment := segment
    subcube_length := subcube_length
    pos := segment
    vel := Vec3.zero
    orientation := Quat.identity
    angular_momentum := Vec3.zero }

instance : Inhabited Subcube := ⟨from_segment Vec3.zero 1⟩

/-- `Subcube::hurl`: outward impulse plus pseudo-random jitter; returns the
updated subcube together with the advanced RNG. -/
def hurl (sc : Subcube) (force : ℝ) (origin : Vec3) (rng : Rng) : Subcube × Rng :=
  let j1 := rng.random_vector3
  let j2 := j1.2.random_vector3
  let v := (sc.pos.sub_v origin).mul_s 16
  ({ sc with
      vel := (v.add_v (j1.1.mul_s 4)).mul_s (force * 0.1)
      angular_momentum := (v.add_v (j2.1.mul_s 0.5)).mul_s (force * 0.5) },
   j2.2)

/-- `Subcube::reset`: `*self = Subcube::from_segment(self.segment, self.subcube_length)`. -/
def reset (sc : Subcube) : Subcube := from_segment sc.segment sc.subcube_length

/-- `Subcube::cancel_momentum`. -/
def cancel_momentum (sc : Subcube) : Subcube :=
  { sc with vel := Vec3.zero, angular_momentum := Vec3.zero }

/-- `Subcube::approach_original_arrangement(frac)`: interpolate `pos` and
`orientation` toward the freshly-constructed target by the fixed factor
`0.1` (the `frac` argument is accepted but unused; the source carries a
TODO about it). -/
noncomputable def approach_original_arrangement (sc : Subcube) (frac : ℝ) : Subcube :=
  let target := from_segment sc.segment sc.subcube_length
  let lerp_amount : ℝ := 0.1
  { sc with
      pos := sc.pos.lerp target.pos lerp_amount
      orientation := sc.orientation.nlerp target.orientation lerp_amount }

/-- `Subcube::step(frac)`: Euler integration of `pos`/`orientation` followed
by the `0.7 ^ frac` per-second decay of `vel` and `angular_momentum`. -/
noncomputable def step (sc : Subcube) (frac : ℝ) : Subcube :=
  let q_angular_momentum := Quat.from_sv 0 (sc.angular_momentum.mul_s frac)
  let d_orientation := q_angular_momentum.mul_q sc.orientation
  let m : ℝ := (0.7 : ℝ) ^ frac
  { sc with
      pos := sc.pos.add_v (sc.vel.mul_s frac)
      orientation := (sc.orientation.add_q d_orientation).normalize
      vel := sc.vel.mul_s m
      angular_momentum := sc.angular_momentum.mul_s m }

end Subcube

/-- `CubeState`; the `Rearranging` variant carries the fields of
`CubeStateRearranging` (`p`, boxed `next_state`) inline. -/
inductive CubeState where
  | simulating : CubeState
  | resetting : CubeState
  | rearranging (p : ℝ) (next_state : CubeState) : CubeState

/-- `Cube`. -/
@[ext]
structure Cube where
  subcubes : List Subcube
  rng : Rng
  state : CubeState

/-- `cgmath::Matrix4<f32>`, as a genuine 4×4 real matrix. -/
abbrev Mat4 := Matrix (Fin 4) (Fin 4) ℝ

/-- `Matrix4::identity()`. -/
noncomputable def mat4_identity : Mat4 := 1

/-- `Matrix4::from_translation(v)`. -/
noncomputable def mat4_from_translation (v : Vec3) : Mat4 :=
  Matrix.of ![![1, 0, 0, v.x], ![0, 1, 0, v.y], ![0, 0, 1, v.z], ![0, 0, 0, 1]]

/-- `Matrix4::from(Matrix3::from_value(k))`: uniform scale. -/
noncomputable def mat4_scale (k : ℝ) : Mat4 :=
  Matrix.of ![![k, 0, 0, 0], ![0, k, 0, 0], ![0, 0, k, 0], ![0, 0, 0, 1]]

/-- `Matrix4::from(quaternion)`: the rotation matrix of a (unit) quaternion. -/
noncomputable def mat4_from_quaternion (q : Quat) : Mat4 :=
  let s := q.s
  let x := q.v.x
  let y := q.v.y
  let z := q.v.z
  Matrix.of
    ![![1 - 2*y*y - 2*z*z, 2*x*y - 2*s*z, 2*x*z + 2*s*y, 0],
      ![2*x*y + 2*s*z, 1 - 2*x*x - 2*z*z, 2*y*z - 2*s*x, 0],
      ![2*x*z - 2*s*y, 2*y*z + 2*s*x, 1 - 2*x*x - 2*y*y, 0],
      ![0, 0, 0, 1]]

namespace Mat4

/-- `MatrixBuilder::translate_v`. -/
noncomputable def translate_v (m : Mat4) (v : Vec3) : Mat4 := m * mat4_from_translation v

/-- `MatrixBuilder::translate_s`: translate by `(k, k, k)`. -/
noncomputable def translate_s (m : Mat4) (k : ℝ) : Mat4 := m.translate_v ⟨k, k, k⟩

/-- `MatrixBuilder::scale_s`. -/
noncomputable def scale_s (m : Mat4) (k : ℝ) : Mat4 := m * mat4_scale k

/-- `MatrixBuilder::quaternion`. -/
noncomputable def quaternion (m : Mat4) (q : Quat) : Mat4 := m * mat4_from_quaternion q

end Mat4

/-- `matrix_mul_v3` in `Subcube::get_subdivided_subcube`:
`mtx.mul_v(&v.extend(1.0)).truncate()`. -/
noncomputable def matrix_mul_v3 (m : Mat4) (v : Vec3) : Vec3 :=
  let w := m.mulVec ![v.x, v.y, v.z, 1]
  ⟨w 0, w 1, w 2⟩

namespace Subcube

/-- `Subcube::get_model_matrix`. -/
noncomputable def get_model_matrix (sc : Subcube) : Mat4 :=
  ((mat4_identity.translate_v sc.pos).scale_s sc.subcube_length).quaternion sc.orientation

/-- `new_pos` in `Subcube::get_subdivided_subcube`: the sub-cell center
`(x, y, z) / count + (1/count)/2` per axis. -/
noncomputable def subdivided_new_pos (count : ℕ) (loc : ℕ × ℕ × ℕ) : Vec3 :=
  (Vec3.mk (loc.1 : ℝ) (loc.2.1 : ℝ) (loc.2.2 : ℝ)).div_s (count : ℝ)
    |>.add_s ((1 / (count : ℝ)) / 2)

/-- `Subcube::get_subdivided_subcube(subdivide_count, loc)`. -/
noncomputable def get_subdivided_subcube (sc : Subcube) (count : ℕ) (loc : ℕ × ℕ × ℕ) :
    Subcube :=
  let segment_model :=
    ((mat4_identity.translate_v sc.segment).scale_s sc.subcube_length).translate_s (-0.5)
  let model := sc.get_model_matrix.translate_s (-0.5)
  let interpolated_pos := subdivided_new_pos count loc
  { segment := matrix_mul_v3 segment_model interpolated_pos
    subcube_length := sc.subcube_length / (count : ℝ)
    pos := matrix_mul_v3 model interpolated_pos
    vel := sc.vel
    orientation := sc.orientation
    angular_momentum := sc.angular_momentum }

end Subcube

/-- `CompareSmallest::set_if_smallest` on `Option` (`src/util/compare.rs`),
with the `PartialOrd` comparison abstracted as the key each instantiation
compares by (`id` for distances; the third component for the
index/subcube/distance triples of `get_subcube_from_ray`). -/
noncomputable def set_if_smallest {α : Type} (key : α → ℝ) (acc : Option α) (v : α) :
    Option α :=
  match acc with
  | none => some v
  | some w => if key v < key w then some v else acc

/-- A loop that feeds each element's candidate (when there is one) to
`set_if_smallest`, as both loops of `Cube::get_subcube_from_ray` do. -/
noncomputable def fold_smallest {β α : Type} (cand : β → Option α) (key : α → ℝ) :
    List β → Option α → Option α
  | [], acc => acc
  | b :: rest, acc =>
      fold_smallest cand key rest
        (match cand b with
         | none => acc
         | some v => set_if_smallest key acc v)

/-- The six bounding planes of the unit cube (`PLANES` in
`intersects_with_unit_cube`). -/
noncomputable def unitCubePlanes : List Plane :=
  [⟨⟨1, 0, 0⟩, 0.5⟩, ⟨⟨-1, 0, 0⟩, 0.5⟩,
   ⟨⟨0, 1, 0⟩, 0.5⟩, ⟨⟨0, -1, 0⟩, 0.5⟩,
   ⟨⟨0, 0, 1⟩, 0.5⟩, ⟨⟨0, 0, -1⟩, 0.5⟩]

/-- One plane's accepted candidate distance inside
`intersects_with_unit_cube`: the intersection point must exist and have all
three coordinates within `[-0.5, 0.5]`; the distance is the length of
`point - ray.origin`. -/
noncomputable def plane_candidate (r : Ray) (p : Plane) : Option ℝ :=
  match planeRayIntersection p r with
  | none => none
  | some point =>
      if -0.5 ≤ point.x ∧ point.x ≤ 0.5 ∧ -0.5 ≤ point.y ∧ point.y ≤ 0.5 ∧
         -0.5 ≤ point.z ∧ point.z ≤ 0.5 then
        some ((point.sub_v r.origin).length)
      else none

/-- `intersects_with_unit_cube` in `Cube::get_subcube_from_ray`. -/
noncomputable def intersects_with_unit_cube (r : Ray) : Option ℝ :=
  fold_smallest (plane_candidate r) id unitCubePlanes none

/-- The ray transformed relative to a non-rotated unit cube, as computed per
subcube in `Cube::get_subcube_from_ray`. -/
noncomputable def subcube_local_ray (sc : Subcube) (ray : Ray) : Ray :=
  let q := sc.orientation.invert
  let origin := (ray.origin.add_v sc.pos.neg).div_s sc.subcube_length
  ⟨q.mul_v origin, q.mul_v ray.direction⟩

namespace Cube

/-- `Cube::try_on_simulating`: run the callback only in the `Simulating`
state. -/
def try_on_simulating (c : Cube) (cb : Cube → Cube) : Cube :=
  match c.state with
  | .simulating => cb c
  | _ => c

/-- The `for` loop of `try_hurl_all`: hurl every subcube in order,
threading the RNG through. -/
def hurl_list : List Subcube → ℝ → Vec3 → Rng → List Subcube × Rng
  | [], _, _, g => ([], g)
  | sc :: rest, force, origin, g =>
      let p := sc.hurl force origin g
      let q := hurl_list rest force origin p.2
      (p.1 :: q.1, q.2)

/-- `Cube::try_hurl_all(force)`. -/
def try_hurl_all (c : Cube) (force : ℝ) : Cube :=
  c.try_on_simulating fun s =>
    let origin := Vec3.from_value 0
    let p := hurl_list s.subcubes force origin s.rng
    { s with subcubes := p.1, rng := p.2 }

/-- `Cube::try_rearrange`. -/
def try_rearrange (c : Cube) : Cube :=
  c.try_on_simulating fun s =>
    { s with
        subcubes := s.subcubes.map Subcube.cancel_momentum
        state := .rearranging 0 .simulating }

/-- `Cube::try_reset`. -/
def try_reset (c : Cube) : Cube :=
  c.try_on_simulating fun s =>
    { s with
        subcubes := s.subcubes.map Subcube.cancel_momentum
        state := .rearranging 0 .resetting }

/-- `Cube::subdivide_subcube(index, subdivide_count)`: replace the subcube
at `index` with its `(0,0,0)` sub-piece, append the other
`subdivide_count³ - 1` sub-pieces, and return the affected indices. -/
noncomputable def subdivide_subcube (c : Cube) (index : ℕ) (subdivide_count : ℕ) :
    Cube × List ℕ :=
  let original := c.subcubes.getD index default
  let subcubes1 := c.subcubes.set index (original.get_subdivided_subcube subdivide_count (0, 0, 0))
  let new_subcubes_idx := subcubes1.length
  let appended := (List.range' 1 (subdivide_count ^ 3 - 1)).map fun i =>
    original.get_subdivided_subcube subdivide_count
      (i % subdivide_count, (i / subdivide_count) % subdivide_count,
       i / subdivide_count / subdivide_count)
  ({ c with subcubes := subcubes1 ++ appended },
   index :: List.range' new_subcubes_idx (subdivide_count ^ 3 - 1))

/-- The `for` loop of `explode_subcube`: hurl the subcube at each listed
index in order, threading the cube's RNG. -/
def hurl_at : Cube → List ℕ → ℝ → Vec3 → Cube
  | c, [], _, _ => c
  | c, i :: rest, force, origin =>
      let p := (c.subcubes.getD i default).hurl force origin c.rng
      hurl_at { c with subcubes := c.subcubes.set i p.1, rng := p.2 } rest force origin

/-- `Cube::explode_subcube(index, force, subdivide_count)`. -/
noncomputable def explode_subcube (c : Cube) (index : ℕ) (force : ℝ)
    (subdivide_count : ℕ) : Cube :=
  let origin := (c.subcubes.getD index default).pos
  let p := c.subdivide_subcube index subdivide_count
  hurl_at p.1 p.2 force origin

/-- `Cube::step(frac)`: the state-machine transition run once per tick.
The `Rearranging` guard is the inclusive range pattern `0.0...1.5` on the
updated counter. -/
noncomputable def step (c : Cube) (frac : ℝ) : Cube :=
  match c.state with
  | .simulating => { c with subcubes := c.subcubes.map fun sc => sc.step frac }
  | .resetting =>
      { c with
          subcubes := [Subcube.from_segment Vec3.zero 1]
          state := .simulating }
  | .rearranging p next_state =>
      let subcubes1 := c.subcubes.map fun sc => sc.approach_original_arrangement frac
      let p1 := p + frac
      if 0 ≤ p1 ∧ p1 ≤ 1.5 then
        { c with subcubes := subcubes1, state := .rearranging p1 next_state }
      else
        { c with subcubes := subcubes1.map Subcube.reset, state := next_state }

/-- The candidate one subcube contributes to the closest-hit loop of
`get_subcube_from_ray`: its index, itself, and the local intersection
distance scaled back to world units by `subcube_length`. -/
noncomputable def ray_candidate (c : Cube) (ray : Ray) (i : ℕ) :
    Option (ℕ × Subcube × ℝ) :=
  let sc := c.subcubes.getD i default
  (intersects_with_unit_cube (subcube_local_ray sc ray)).map fun dist =>
    (i, sc, dist * sc.subcube_length)

/-- `Cube::get_subcube_from_ray(ray)`. -/
noncomputable def get_subcube_from_ray (c : Cube) (ray : Ray) : Option (ℕ × Subcube) :=
  match fold_smallest (c.ray_candidate ray) (fun t => t.2.2)
      (List.range c.subcubes.length) none with
  | some (i, sc, _) => some (i, sc)
  | none => none

/-- The world-unit hit distance of the subcube at index `i`, the value the
closest-hit loop compares by. -/
noncomputable def world_hit (c : Cube) (ray : Ray) (i : ℕ) : Option ℝ :=
  (intersects_with_unit_cube (subcube_local_ray (c.subcubes.getD i default) ray)).map
    fun dist => dist * (c.subcubes.getD i default).subcube_length

/-- A sequence of `Cube::step` calls. -/
noncomputable def step_seq (c : Cube) (fracs : List ℝ) : Cube := fracs.foldl Cube.step c

end Cube

/-- One call a client can make on a `Subcube` between renders: either
`step(frac)` or `approach_original_arrangement(frac)`. -/
inductive SubOp where
  | step (frac : ℝ) : SubOp
  | approach (frac : ℝ) : SubOp

namespace Subcube

/-- Apply one `SubOp`. -/
noncomputable def apply_op (sc : Subcube) : SubOp → Subcube
  | .step f => sc.step f
  | .approach f => sc.approach_original_arrangement f

/-- Apply a finite sequence of `step`/`approach_original_arrangement` calls. -/
noncomputable def apply_ops (sc : Subcube) (ops : List SubOp) : Subcube :=
  ops.foldl (fun a op => a.apply_op op) sc

/-- A sequence of `Subcube::step` calls. -/
noncomputable def step_seq (sc : Subcube) (fracs : List ℝ) : Subcube :=
  fracs.foldl (fun a f => a.step f) sc

end Subcube

/-- Every subcube moved once by `approach_original_arrangement` per listed
frac, in order: the subcube-collection effect of consecutive
`Rearranging` steps. -/
noncomputable def approach_list (fracs : List ℝ) (l : List Subcube) : List Subcube :=
  fracs.foldl (fun acc f => acc.map fun sc => sc.approach_original_arrangement f) l

/-- The closed axis-aligned box of edge length `len` centered at `center`:
the spatial extent of a subcube's reference arrangement. -/
def closed_box (center : Vec3) (len : ℝ) : Set Vec3 :=
  {p | |p.x - center.x| ≤ len / 2 ∧ |p.y - center.y| ≤ len / 2 ∧ |p.z - center.z| ≤ len / 2}

/-- The open interior of `closed_box`. -/
def open_box (center : Vec3) (len : ℝ) : Set Vec3 :=
  {p | |p.x - center.x| < len / 2 ∧ |p.y - center.y| < len / 2 ∧ |p.z - center.z| < len / 2}

/-- A concrete RNG stream for concrete evaluations. -/
def demo_rng : Rng := ⟨fun _ => 0, 0⟩

/-- The full-size subcube the cube is created with. -/
def unit_subcube : Subcube := Subcube.from_segment Vec3.zero 1

/-- A concrete cube in the `Resetting` state whose single subcube sits away
from its reference segment. -/
def resetting_cube : Cube :=
  ⟨[{ unit_subcube with pos := ⟨2, 0, 0⟩ }], demo_rng, .resetting⟩

/-- A concrete cube in the `Rearranging` state at elapsed `0`, headed back
to `Simulating`. -/
def rearranging_cube : Cube :=
  ⟨[{ unit_subcube with pos := ⟨2, 0, 0⟩ }], demo_rng, .rearranging 0 .simulating⟩

/-- A concrete freshly-created cube (one full-size subcube, `Simulating`). -/
def fresh_cube : Cube := ⟨[unit_subcube], demo_rng, .simulating⟩

/-- A ray cast from the world origin straight down the `-z` axis; it leaves
the fresh cube through the face `z = -0.5`. -/
def down_z_ray : Ray := ⟨⟨0, 0, 0⟩, ⟨0, 0, -1⟩⟩

/-- A ray cast from `(0, 0, 2)` straight up the `+z` axis, away from the
fresh cube. -/
def away_ray : Ray := ⟨⟨0, 0, 2⟩, ⟨0, 0, 1⟩⟩

/-! ## Theorems -/

/-- `try_on_simulating` leaves the cube untouched in any state other than
`Simulating`. -/
theorem try_on_simulating_of_ne (c : Cube) (h : c.state ≠ CubeState.simulating)
    (cb : Cube → Cube) : c.try_on_simulating cb = c := by
  obtain ⟨subs, rng, st⟩ := c
  cases st with
  | simulating => exact absurd rfl h
  | resetting => rfl
  | rearranging p next_state => rfl

/-- C9: `approach_original_arrangement(frac)` never uses its `frac`
argument; it interpolates `pos` linearly toward `segment` and
`orientation` toward the identity orientation by the fixed blend factor
`0.1`. -/
theorem approach_original_arrangement_ignores_frac :
    (∀ (sc : Subcube) (frac1 frac2 : ℝ),
        sc.approach_original_arrangement frac1 = sc.approach_original_arrangement frac2)
    ∧ (∀ (sc : Subcube) (frac : ℝ),
        (sc.approach_original_arrangement frac).pos = sc.pos.lerp sc.segment 0.1
        ∧ (sc.approach_original_arrangement frac).orientation
            = sc.orientation.nlerp Quat.identity 0.1
        ∧ (sc.approach_original_arrangement frac).segment = sc.segment
        ∧ (sc.approach_original_arrangement frac).subcube_length = sc.subcube_length
        ∧ (sc.approach_original_arrangement frac).vel = sc.vel
        ∧ (sc.approach_original_arrangement frac).angular_momentum = sc.angular_momentum) := by
  refine ⟨fun sc frac1 frac2 => rfl, fun sc frac => ⟨rfl, rfl, rfl, rfl, rfl, rfl⟩⟩

/-- C1 (counterexample): stepping the concrete `resetting_cube` transitions
it to `Simulating`, so the claim that a `Resetting` cube performs no state
transition fails. -/
theorem resetting_cube_transitions :
    (resetting_cube.step 1).state = CubeState.simulating
    ∧ CubeState.simulating ≠ CubeState.resetting := by
  exact ⟨rfl, fun h => CubeState.noConfusion h⟩

/-- C1 (amended): while the cube is in `Resetting`, one `step(frac)` call
does not interpolate the subcubes; it replaces the collection with a single
fresh full-size subcube and transitions to `Simulating`. -/
theorem resetting_step_eq (c : Cube) (frac : ℝ) (h : c.state = CubeState.resetting) :
    c.step frac
      = { subcubes := [Subcube.from_segment Vec3.zero 1], rng := c.rng,
          state := CubeState.simulating } := by
  obtain ⟨subs, rng, st⟩ := c
  have h2 : st = CubeState.resetting := h
  subst h2
  rfl

/-- C1 (witness): the amended statement evaluated on `resetting_cube`. -/
theorem resetting_step_eq_witness :
    resetting_cube.step 1
      = { subcubes := [Subcube.from_segment Vec3.zero 1], rng := resetting_cube.rng,
          state := CubeState.simulating } :=
  resetting_step_eq resetting_cube 1 rfl

/-- C3: when the cube's state is not `Simulating`, `try_hurl_all`,
`try_rearrange` and `try_reset` are complete no-ops (state, RNG and every
subcube field unchanged), and in particular a second `try_reset` issued
right after a first one changes nothing. -/
theorem guarded_mutators_noop (c : Cube) (h : c.state ≠ CubeState.simulating) (force : ℝ) :
    c.try_hurl_all force = c ∧ c.try_rearrange = c ∧ c.try_reset = c
    ∧ ∀ d : Cube, d.try_reset.try_reset = d.try_reset := by
  refine ⟨try_on_simulating_of_ne c h _, try_on_simulating_of_ne c h _,
      try_on_simulating_of_ne c h _, fun d => ?_⟩
  obtain ⟨subs, rng, st⟩ := d
  cases st with
  | simulating => rfl
  | resetting => rfl
  | rearranging p next_state => rfl

/-- C3 (witness): the guarded mutators evaluated on the concrete
`resetting_cube`. -/
theorem guarded_mutators_noop_witness :
    resetting_cube.try_hurl_all 4 = resetting_cube
    ∧ resetting_cube.try_rearrange = resetting_cube
    ∧ resetting_cube.try_reset = resetting_cube := by
  have h := guarded_mutators_noop resetting_cube (fun h => CubeState.noConfusion h) 4
  exact ⟨h.1, h.2.1, h.2.2.1⟩

/-- Scaling a vector by `1` changes nothing. -/
theorem Vec3.mul_s_one (v : Vec3) : v.mul_s 1 = v := by
  ext <;> simp [Vec3.mul_s]

/-- Two successive scalings compose multiplicatively. -/
theorem Vec3.mul_s_mul_s (v : Vec3) (a b : ℝ) : (v.mul_s a).mul_s b = v.mul_s (a * b) := by
  ext <;> (simp only [Vec3.mul_s]; ring)

/-- The squared length of a scaled vector. -/
theorem Vec3.dot_mul_s_self (v : Vec3) (k : ℝ) :
    (v.mul_s k).dot (v.mul_s k) = k ^ 2 * v.dot v := by
  simp only [Vec3.mul_s, Vec3.dot]; ring

/-- The length of a vector scaled by a nonnegative factor. -/
theorem Vec3.length_mul_s (v : Vec3) (k : ℝ) (hk : 0 ≤ k) :
    (v.mul_s k).length = k * v.length := by
  rw [Vec3.length, Vec3.length, Vec3.dot_mul_s_self, Real.sqrt_mul (sq_nonneg k),
    Real.sqrt_sq hk]

/-- `Subcube::step` scales the velocity by `0.7 ^ frac`. -/
theorem step_vel (sc : Subcube) (frac : ℝ) :
    (sc.step frac).vel = sc.vel.mul_s ((0.7 : ℝ) ^ frac) := rfl

/-- `Subcube::step` scales the angular momentum by `0.7 ^ frac`. -/
theorem step_angular_momentum (sc : Subcube) (frac : ℝ) :
    (sc.step frac).angular_momentum = sc.angular_momentum.mul_s ((0.7 : ℝ) ^ frac) := rfl

/-- Across a sequence of steps, the decay factors compose into
`0.7 ^ (sum of fracs)`. -/
theorem step_seq_decay (fracs : List ℝ) (sc : Subcube) :
    (sc.step_seq fracs).vel = sc.vel.mul_s ((0.7 : ℝ) ^ fracs.sum)
    ∧ (sc.step_seq fracs).angular_momentum
        = sc.angular_momentum.mul_s ((0.7 : ℝ) ^ fracs.sum) := by
  induction fracs generalizing sc with
  | nil =>
      simp [Subcube.step_seq, List.sum_nil, Real.rpow_zero, Vec3.mul_s_one]
  | cons f rest ih =>
      have h := ih (sc.step f)
      have hstep : sc.step_seq (f :: rest) = (sc.step f).step_seq rest := rfl
      rw [hstep, List.sum_cons]
      refine ⟨?_, ?_⟩
      · rw [h.1, step_vel, Vec3.mul_s_mul_s, ← Real.rpow_add (by norm_num : (0:ℝ) < 0.7)]
      · rw [h.2, step_angular_momentum, Vec3.mul_s_mul_s,
          ← Real.rpow_add (by norm_num : (0:ℝ) < 0.7)]

/-- C8: `Subcube::step(frac)` Euler-integrates the position, integrates the
orientation by the left-multiplied pure quaternion `(0, angular_momentum * frac)`
followed by renormalization, and decays both `vel` and `angular_momentum` by
`0.7 ^ frac`; hence over any sequence of steps whose fracs sum to `1` second
each magnitude shrinks to exactly 70 percent. -/
theorem step_euler_and_decay :
    (∀ (sc : Subcube) (frac : ℝ),
        (sc.step frac).pos = sc.pos.add_v (sc.vel.mul_s frac)
        ∧ (sc.step frac).orientation
            = (sc.orientation.add_q
                ((Quat.from_sv 0 (sc.angular_momentum.mul_s frac)).mul_q
                  sc.orientation)).normalize
        ∧ (sc.step frac).vel = sc.vel.mul_s ((0.7 : ℝ) ^ frac)
        ∧ (sc.step frac).angular_momentum = sc.angular_momentum.mul_s ((0.7 : ℝ) ^ frac))
    ∧ (∀ (sc : Subcube) (fracs : List ℝ), fracs.sum = 1 →
        (sc.step_seq fracs).vel = sc.vel.mul_s 0.7
        ∧ (sc.step_seq fracs).angular_momentum = sc.angular_momentum.mul_s 0.7
        ∧ (sc.step_seq fracs).vel.length = 0.7 * sc.vel.length
        ∧ (sc.step_seq fracs).angular_momentum.length
            = 0.7 * sc.angular_momentum.length) := by
  constructor
  · exact fun sc frac => ⟨rfl, rfl, rfl, rfl⟩
  · intro sc fracs hsum
    have h := step_seq_decay fracs sc
    rw [hsum] at h
    have h07 : ((0.7 : ℝ) ^ (1 : ℝ)) = 0.7 := Real.rpow_one 0.7
    rw [h07] at h
    refine ⟨h.1, h.2, ?_, ?_⟩
    · rw [h.1, Vec3.length_mul_s _ _ (by norm_num)]
    · rw [h.2, Vec3.length_mul_s _ _ (by norm_num)]

/-- The squared quaternion magnitude is multiplicative. -/
theorem Quat.magnitude2_mul_q (a b : Quat) :
    (a.mul_q b).magnitude2 = a.magnitude2 * b.magnitude2 := by
  simp only [Quat.mul_q, Quat.magnitude2, Vec3.dot]
  ring

/-- A vector's dot product with itself is nonnegative. -/
theorem Vec3.dot_self_nonneg (v : Vec3) : 0 ≤ v.dot v := by
  simp only [Vec3.dot]
  nlinarith [mul_self_nonneg v.x, mul_self_nonneg v.y, mul_self_nonneg v.z]

/-- The squared quaternion magnitude is nonnegative. -/
theorem Quat.magnitude2_nonneg (a : Quat) : 0 ≤ a.magnitude2 := by
  have := Vec3.dot_self_nonneg a.v
  simp only [Quat.magnitude2]
  nlinarith [mul_self_nonneg a.s]

/-- The squared magnitude of a scaled quaternion. -/
theorem Quat.magnitude2_mul_s (a : Quat) (k : ℝ) :
    (a.mul_s k).magnitude2 = k ^ 2 * a.magnitude2 := by
  simp only [Quat.mul_s, Quat.magnitude2, Vec3.mul_s, Vec3.dot]
  ring

/-- Normalizing a quaternion of nonzero squared magnitude yields a unit
quaternion. -/
theorem Quat.normalize_magnitude2 (a : Quat) (h : a.magnitude2 ≠ 0) :
    a.normalize.magnitude2 = 1 := by
  rw [Quat.normalize, Quat.magnitude2_mul_s, Quat.magnitude]
  rw [div_pow, one_pow, Real.sq_sqrt (Quat.magnitude2_nonneg a)]
  rw [one_div, inv_mul_cancel₀ h]

/-- The orientation update of `Subcube::step` factors as a left
multiplication by `identity + (0, angular_momentum * frac)`. -/
theorem step_orientation_factor (o : Quat) (w : Vec3) :
    o.add_q ((Quat.from_sv 0 w).mul_q o)
      = (Quat.identity.add_q (Quat.from_sv 0 w)).mul_q o := by
  ext <;> (simp only [Quat.add_q, Quat.mul_q, Quat.from_sv, Quat.identity, Vec3.add_v]; ring)

/-- The squared magnitude of `identity + (0, w)` is `1 + |w|²`. -/
theorem Quat.magnitude2_identity_add_pure (w : Vec3) :
    (Quat.identity.add_q (Quat.from_sv 0 w)).magnitude2 = 1 + w.dot w := by
  simp only [Quat.add_q, Quat.from_sv, Quat.identity, Quat.magnitude2, Vec3.add_v, Vec3.dot]
  ring

/-- `Subcube::step` keeps the orientation unit-length. -/
theorem step_orientation_unit (sc : Subcube) (frac : ℝ)
    (h : sc.orientation.magnitude2 = 1) : (sc.step frac).orientation.magnitude2 = 1 := by
  have hfactor := step_orientation_factor sc.orientation (sc.angular_momentum.mul_s frac)
  have hpos : 0 < (sc.orientation.add_q
      ((Quat.from_sv 0 (sc.angular_momentum.mul_s frac)).mul_q sc.orientation)).magnitude2 := by
    rw [hfactor, Quat.magnitude2_mul_q, Quat.magnitude2_identity_add_pure, h, mul_one]
    have hd := Vec3.dot_self_nonneg (sc.angular_momentum.mul_s frac)
    linarith
  exact Quat.normalize_magnitude2 _ (ne_of_gt hpos)

/-- `Subcube::approach_original_arrangement` keeps the orientation
unit-length. -/
theorem approach_orientation_unit (sc : Subcube) (frac : ℝ)
    (h : sc.orientation.magnitude2 = 1) :
    (sc.approach_original_arrangement frac).orientation.magnitude2 = 1 := by
  have hmag : ((sc.orientation.mul_s (1 - 0.1)).add_q
      (Quat.identity.mul_s 0.1)).magnitude2
      = 0.81 * sc.orientation.magnitude2 + 0.18 * sc.orientation.s + 0.01 := by
    simp only [Quat.mul_s, Quat.add_q, Quat.identity, Quat.magnitude2, Vec3.mul_s,
      Vec3.add_v, Vec3.dot]
    ring
  have hs2 : sc.orientation.s ^ 2 ≤ 1 := by
    have hd : 0 ≤ sc.orientation.v.dot sc.orientation.v := Vec3.dot_self_nonneg _
    have := h
    simp only [Quat.magnitude2] at this
    nlinarith
  have hpos : 0 < ((sc.orientation.mul_s (1 - 0.1)).add_q
      (Quat.identity.mul_s 0.1)).magnitude2 := by
    rw [hmag, h]
    nlinarith [sq_nonneg (sc.orientation.s + 1)]
  exact Quat.normalize_magnitude2 _ (ne_of_gt hpos)

/-- C4: starting from a unit orientation, any finite sequence of
`step`/`approach_original_arrangement` calls leaves the orientation
quaternion of exactly unit length, because every update renormalizes. -/
theorem orientation_unit_after_ops (sc : Subcube) (h : sc.orientation.magnitude2 = 1)
    (ops : List SubOp) :
    (sc.apply_ops ops).orientation.magnitude2 = 1
    ∧ (sc.apply_ops ops).orientation.magnitude = 1 := by
  suffices hm : (sc.apply_ops ops).orientation.magnitude2 = 1 by
    refine ⟨hm, ?_⟩
    rw [Quat.magnitude, hm, Real.sqrt_one]
  induction ops generalizing sc with
  | nil => exact h
  | cons op rest ih =>
      have hstep : sc.apply_ops (op :: rest) = (sc.apply_op op).apply_ops rest := rfl
      rw [hstep]
      refine ih (sc.apply_op op) ?_
      cases op with
      | step f => exact step_orientation_unit sc f h
      | approach f => exact approach_orientation_unit sc f h

/-- C4 (witness): the invariant evaluated on the fresh full-size subcube
across one `step` and one `approach_original_arrangement` call. -/
theorem orientation_unit_after_ops_witness :
    (unit_subcube.apply_ops [SubOp.step 1, SubOp.approach 1]).orientation.magnitude = 1 := by
  refine (orientation_unit_after_ops unit_subcube ?_ [SubOp.step 1, SubOp.approach 1]).2
  simp [unit_subcube, Subcube.from_segment, Quat.identity, Quat.magnitude2, Vec3.dot]

/-- A `Rearranging` step whose updated counter stays within `[0, 1.5]`
interpolates every subcube and stays `Rearranging`. -/
theorem step_rearranging_le (c : Cube) (p : ℝ) (next : CubeState) (frac : ℝ)
    (hst : c.state = CubeState.rearranging p next)
    (h0 : 0 ≤ p + frac) (h15 : p + frac ≤ 1.5) :
    c.step frac
      = { c with
          subcubes := c.subcubes.map fun sc => sc.approach_original_arrangement frac
          state := CubeState.rearranging (p + frac) next } := by
  obtain ⟨subs, rng, st⟩ := c
  have h2 : st = CubeState.rearranging p next := hst
  subst h2
  simp only [Cube.step]
  rw [if_pos ⟨h0, h15⟩]

/-- A `Rearranging` step whose updated counter leaves `[0, 1.5]`
interpolates, then resets every subcube and installs the stored next
state. -/
theorem step_rearranging_gt (c : Cube) (p : ℝ) (next : CubeState) (frac : ℝ)
    (hst : c.state = CubeState.rearranging p next)
    (h15 : 1.5 < p + frac) :
    c.step frac
      = { c with
          subcubes :=
            (c.subcubes.map fun sc => sc.approach_original_arrangement frac).map
              Subcube.reset
          state := next } := by
  obtain ⟨subs, rng, st⟩ := c
  have h2 : st = CubeState.rearranging p next := hst
  subst h2
  simp only [Cube.step]
  rw [if_neg fun hc => absurd h15 (not_lt.mpr hc.2)]

/-- Resetting after interpolating is the same as resetting outright:
`approach_original_arrangement` never changes `segment` or
`subcube_length`. -/
theorem approach_list_map_reset (fracs : List ℝ) (l : List Subcube) :
    (approach_list fracs l).map Subcube.reset = l.map Subcube.reset := by
  induction fracs generalizing l with
  | nil => rfl
  | cons f rest ih =>
      have h1 : approach_list (f :: rest) l
          = approach_list rest (l.map fun sc => sc.approach_original_arrangement f) := rfl
      rw [h1, ih, List.map_map]
      rfl

/-- While every cumulative counter stays at or below `1.5`, a `Rearranging`
cube keeps interpolating and never leaves `Rearranging`. -/
theorem step_seq_rearranging (fracs : List ℝ) (c : Cube) (p : ℝ) (next : CubeState)
    (hst : c.state = CubeState.rearranging p next) (hp : 0 ≤ p)
    (hpos : ∀ f ∈ fracs, 0 ≤ f) (hsum : p + fracs.sum ≤ 1.5) :
    (c.step_seq fracs).state = CubeState.rearranging (p + fracs.sum) next
    ∧ (c.step_seq fracs).subcubes = approach_list fracs c.subcubes
    ∧ (c.step_seq fracs).rng = c.rng := by
  induction fracs generalizing c p with
  | nil =>
      refine ⟨?_, rfl, rfl⟩
      rw [List.sum_nil, add_zero]
      exact hst
  | cons f rest ih =>
      have hf : 0 ≤ f := hpos f (List.mem_cons_self f rest)
      have hrest : 0 ≤ rest.sum := List.sum_nonneg fun x hx => hpos x (List.mem_cons_of_mem f hx)
      rw [List.sum_cons, ← add_assoc] at hsum
      have hone := step_rearranging_le c p next f hst (by linarith) (by linarith)
      have hseq : c.step_seq (f :: rest) = (c.step f).step_seq rest := rfl
      have hih := ih (c.step f) (p + f) (by rw [hone]) (by linarith)
        (fun x hx => hpos x (List.mem_cons_of_mem f hx)) hsum
      rw [hseq]
      refine ⟨?_, ?_, ?_⟩
      · rw [hih.1, List.sum_cons, ← add_assoc]
      · rw [hih.2.1, hone]
        rfl
      · rw [hih.2.2, hone]

/-- C2: starting from `Rearranging(0, next)`, a sequence of nonnegative
`step(frac)` calls whose fracs sum to at most `1.5` interpolates every
subcube each call, accumulates the counter and stays `Rearranging`; the
first further call pushing the cumulative counter strictly above `1.5`
resets every subcube to its `segment` pose (identity orientation, zero
velocity and angular momentum) and installs the stored next state. -/
theorem rearranging_timeline (next : CubeState) (c : Cube)
    (hst : c.state = CubeState.rearranging 0 next)
    (fracs : List ℝ) (hpos : ∀ f ∈ fracs, 0 ≤ f) (hsum : fracs.sum ≤ 1.5) :
    (c.step_seq fracs).state = CubeState.rearranging fracs.sum next
    ∧ (c.step_seq fracs).subcubes = approach_list fracs c.subcubes
    ∧ ∀ g : ℝ, 0 ≤ g → 1.5 < fracs.sum + g →
        ((c.step_seq fracs).step g).state = next
        ∧ ((c.step_seq fracs).step g).subcubes
            = c.subcubes.map (fun sc => Subcube.from_segment sc.segment sc.subcube_length)
        ∧ ∀ sc ∈ ((c.step_seq fracs).step g).subcubes,
            sc.pos = sc.segment ∧ sc.orientation = Quat.identity
            ∧ sc.vel = Vec3.zero ∧ sc.angular_momentum = Vec3.zero := by
  have hbase := step_seq_rearranging fracs c 0 next hst le_rfl hpos (by rw [zero_add]; exact hsum)
  rw [zero_add] at hbase
  refine ⟨hbase.1, hbase.2.1, fun g hg h15 => ?_⟩
  have hgt := step_rearranging_gt (c.step_seq fracs) fracs.sum next g hbase.1 h15
  have hsubs : ((c.step_seq fracs).step g).subcubes
      = c.subcubes.map (fun sc => Subcube.from_segment sc.segment sc.subcube_length) := by
    rw [hgt]
    show ((c.step_seq fracs).subcubes.map
        fun sc => sc.approach_original_arrangement g).map Subcube.reset = _
    have h1 : ((c.step_seq fracs).subcubes.map
        fun sc => sc.approach_original_arrangement g).map Subcube.reset
        = (approach_list [g] (c.step_seq fracs).subcubes).map Subcube.reset := rfl
    rw [h1, approach_list_map_reset, hbase.2.1, approach_list_map_reset]
    rfl
  refine ⟨by rw [hgt], hsubs, ?_⟩
  intro sc hsc
  rw [hsubs] at hsc
  obtain ⟨a, _, rfl⟩ := List.mem_map.mp hsc
  exact ⟨rfl, rfl, rfl, rfl⟩

/-- Reading back the element just written by `List.set`. -/
theorem getD_set_self {α : Type} :
    ∀ (l : List α) (i : ℕ) (a d : α), i < l.length → (l.set i a).getD i d = a := by
  intro l
  induction l with
  | nil => intro i a d h; exact absurd h (Nat.not_lt_zero i)
  | cons b t ih =>
      intro i a d h
      cases i with
      | zero => rfl
      | succ j => exact ih j a d (Nat.lt_of_succ_lt_succ h)

/-- `List.set` leaves every other position unchanged. -/
theorem getD_set_ne {α : Type} :
    ∀ (l : List α) (i j : ℕ) (a d : α), i ≠ j → (l.set i a).getD j d = l.getD j d := by
  intro l
  induction l with
  | nil => intro i j a d _; rfl
  | cons b t ih =>
      intro i j a d hij
      cases i with
      | zero =>
          cases j with
          | zero => exact absurd rfl hij
          | succ j2 => rfl
      | succ i2 =>
          cases j with
          | zero => rfl
          | succ j2 => exact ih i2 j2 a d fun h => hij (congrArg Nat.succ h)

/-- Reading an appended list inside the left part. -/
theorem getD_append_left {α : Type} :
    ∀ (l m : List α) (j : ℕ) (d : α), j < l.length → (l ++ m).getD j d = l.getD j d := by
  intro l
  induction l with
  | nil => intro m j d h; exact absurd h (Nat.not_lt_zero j)
  | cons b t ih =>
      intro m j d h
      cases j with
      | zero => rfl
      | succ j2 => exact ih m j2 d (Nat.lt_of_succ_lt_succ h)

/-- Reading an appended list inside the right part. -/
theorem getD_append_right_add {α : Type} :
    ∀ (l m : List α) (k : ℕ) (d : α), (l ++ m).getD (l.length + k) d = m.getD k d := by
  intro l
  induction l with
  | nil => intro m k d; simp [List.getD]
  | cons b t ih =>
      intro m k d
      have h : (b :: t).length + k = (t.length + k) + 1 := by
        simp only [List.length_cons]
        omega
      rw [h]
      exact ih m k d

/-- Reading a mapped arithmetic range. -/
theorem getD_map_range' {α : Type} :
    ∀ (n s k : ℕ) (f : ℕ → α) (d : α), k < n →
      (((List.range' s n).map f).getD k d) = f (s + k) := by
  intro n
  induction n with
  | zero => intro s k f d h; exact absurd h (Nat.not_lt_zero k)
  | succ m ih =>
      intro s k f d h
      cases k with
      | zero => rfl
      | succ k2 =>
          have h2 : s + (k2 + 1) = (s + 1) + k2 := by omega
          rw [h2]
          exact ih (s + 1) k2 f d (Nat.lt_of_succ_lt_succ h)

/-- `hurl_at` never changes the number of subcubes. -/
theorem hurl_at_length :
    ∀ (idxs : List ℕ) (c : Cube) (force : ℝ) (origin : Vec3),
      (Cube.hurl_at c idxs force origin).subcubes.length = c.subcubes.length := by
  intro idxs
  induction idxs with
  | nil => intro c force origin; rfl
  | cons i rest ih =>
      intro c force origin
      rw [Cube.hurl_at, ih]
      simp

/-- `hurl_at` leaves every position outside its index list untouched. -/
theorem hurl_at_getD_not_mem :
    ∀ (idxs : List ℕ) (c : Cube) (force : ℝ) (origin : Vec3) (j : ℕ), j ∉ idxs →
      (Cube.hurl_at c idxs force origin).subcubes.getD j default
        = c.subcubes.getD j default := by
  intro idxs
  induction idxs with
  | nil => intro c force origin j _; rfl
  | cons i rest ih =>
      intro c force origin j hj
      have hji : i ≠ j := fun h => hj (h ▸ List.mem_cons_self i rest)
      have hjr : j ∉ rest := fun h => hj (List.mem_cons_of_mem i h)
      rw [Cube.hurl_at, ih _ force origin j hjr]
      exact getD_set_ne _ _ _ _ _ hji

/-- The head of `hurl_at`'s index list is hurled with the cube's current
RNG. -/
theorem hurl_at_head (rest : List ℕ) (c : Cube) (force : ℝ) (origin : Vec3) (i : ℕ)
    (hi : i < c.subcubes.length) (hmem : i ∉ rest) :
    (Cube.hurl_at c (i :: rest) force origin).subcubes.getD i default
      = ((c.subcubes.getD i default).hurl force origin c.rng).1 := by
  rw [Cube.hurl_at, hurl_at_getD_not_mem rest _ force origin i hmem]
  exact getD_set_self _ _ _ _ hi

/-- Every index in `hurl_at`'s (duplicate-free, in-bounds) list ends up
hurled with the claimed force and origin, under some RNG state. -/
theorem hurl_at_getD_mem :
    ∀ (idxs : List ℕ) (c : Cube) (force : ℝ) (origin : Vec3) (t : ℕ),
      idxs.Nodup → t ∈ idxs → (∀ u ∈ idxs, u < c.subcubes.length) →
      ∃ g : Rng,
        (Cube.hurl_at c idxs force origin).subcubes.getD t default
          = ((c.subcubes.getD t default).hurl force origin g).1 := by
  intro idxs
  induction idxs with
  | nil => intro c force origin t _ ht _; exact absurd ht (List.not_mem_nil t)
  | cons i rest ih =>
      intro c force origin t hnd ht hbound
      have hnd2 := List.nodup_cons.mp hnd
      rcases List.mem_cons.mp ht with hti | htr
      · subst hti
        exact ⟨c.rng, hurl_at_head rest c force origin t
          (hbound t (List.mem_cons_self t rest)) hnd2.1⟩
      · have hti : t ≠ i := fun h => hnd2.1 (h ▸ htr)
        rw [Cube.hurl_at]
        have hbound2 : ∀ u ∈ rest,
            u < (({ c with
              subcubes := c.subcubes.set i
                (((c.subcubes.getD i default).hurl force origin c.rng).1)
              rng := ((c.subcubes.getD i default).hurl force origin c.rng).2 } :
                Cube).subcubes.length) := by
          intro u hu
          simpa using hbound u (List.mem_cons_of_mem i hu)
        obtain ⟨g, hg⟩ := ih _ force origin t hnd2.2 htr hbound2
        refine ⟨g, ?_⟩
        rw [hg]
        rw [getD_set_ne _ _ _ _ _ fun h => hti h.symm]

/-- `explode_subcube` unfolded: hurl the replaced index and the appended
range, on the subdivided collection, around the original position of the
target. -/
theorem explode_subcube_eq (c : Cube) (i : ℕ) (force : ℝ) (n : ℕ) :
    c.explode_subcube i force n
      = Cube.hurl_at
          { c with
            subcubes :=
              c.subcubes.set i
                  ((c.subcubes.getD i default).get_subdivided_subcube n (0, 0, 0))
                ++ (List.range' 1 (n ^ 3 - 1)).map (fun j =>
                    (c.subcubes.getD i default).get_subdivided_subcube n
                      (j % n, (j / n) % n, j / n / n)) }
          (i :: List.range' c.subcubes.length (n ^ 3 - 1)) force
          (c.subcubes.getD i default).pos := by
  simp only [Cube.explode_subcube, Cube.subdivide_subcube, List.length_set]

/-- C5: `explode_subcube(i, force, n)` with a valid index and `n ≥ 1` grows
the collection by exactly `n³ - 1`, leaves every other previously-valid
index unchanged, and replaces the target and each appended slot by the
corresponding sub-piece hurled with `force` around the target's recorded
original position. -/
theorem explode_subcube_spec (c : Cube) (i : ℕ) (force : ℝ) (n : ℕ)
    (hi : i < c.subcubes.length) (hn : 1 ≤ n) :
    (c.explode_subcube i force n).subcubes.length = c.subcubes.length + (n ^ 3 - 1)
    ∧ (∀ j, j < c.subcubes.length → j ≠ i →
        (c.explode_subcube i force n).subcubes.getD j default
          = c.subcubes.getD j default)
    ∧ (c.explode_subcube i force n).subcubes.getD i default
        = (((c.subcubes.getD i default).get_subdivided_subcube n (0, 0, 0)).hurl force
            (c.subcubes.getD i default).pos c.rng).1
    ∧ ∀ k, k < n ^ 3 - 1 →
        ∃ g : Rng,
          (c.explode_subcube i force n).subcubes.getD (c.subcubes.length + k) default
            = (((c.subcubes.getD i default).get_subdivided_subcube n
                  ((k + 1) % n, ((k + 1) / n) % n, (k + 1) / n / n)).hurl force
                (c.subcubes.getD i default).pos g).1 := by
  rw [explode_subcube_eq]
  set S1 := c.subcubes.set i
    ((c.subcubes.getD i default).get_subdivided_subcube n (0, 0, 0)) with hS1
  set A := (List.range' 1 (n ^ 3 - 1)).map (fun j =>
    (c.subcubes.getD i default).get_subdivided_subcube n
      (j % n, (j / n) % n, j / n / n)) with hA
  set c1 : Cube := { c with subcubes := S1 ++ A } with hc1
  have hc1subs : c1.subcubes = S1 ++ A := rfl
  have hc1rng : c1.rng = c.rng := rfl
  have hS1len : S1.length = c.subcubes.length := by rw [hS1, List.length_set]
  have hAlen : A.length = n ^ 3 - 1 := by rw [hA, List.length_map, List.length_range']
  have hlen1 : c1.subcubes.length = c.subcubes.length + (n ^ 3 - 1) := by
    rw [hc1subs, List.length_append, hS1len, hAlen]
  refine ⟨?_, ?_, ?_, ?_⟩
  · rw [hurl_at_length, hlen1]
  · intro j hj hji
    have hnot : j ∉ i :: List.range' c.subcubes.length (n ^ 3 - 1) := by
      intro hmem
      rcases List.mem_cons.mp hmem with h1 | h2
      · exact hji h1
      · have := (List.mem_range'_1.mp h2).1
        omega
    rw [hurl_at_getD_not_mem _ _ _ _ _ hnot, hc1subs,
      getD_append_left _ _ _ _ (by rw [hS1len]; omega),
      hS1, getD_set_ne _ _ _ _ _ fun h => hji h.symm]
  · have hmem : i ∉ List.range' c.subcubes.length (n ^ 3 - 1) := by
      intro h2
      have := (List.mem_range'_1.mp h2).1
      omega
    rw [hurl_at_head _ _ _ _ _ (by rw [hlen1]; omega) hmem, hc1rng, hc1subs,
      getD_append_left _ _ _ _ (by rw [hS1len]; omega),
      hS1, getD_set_self _ _ _ _ (by simpa using hi)]
  · intro k hk
    have hmem : c.subcubes.length + k ∈ i :: List.range' c.subcubes.length (n ^ 3 - 1) :=
      List.mem_cons_of_mem i (List.mem_range'_1.mpr ⟨Nat.le_add_right _ _, by omega⟩)
    have hnd : (i :: List.range' c.subcubes.length (n ^ 3 - 1)).Nodup := by
      refine List.nodup_cons.mpr ⟨?_, ?_⟩
      · intro h2
        have := (List.mem_range'_1.mp h2).1
        omega
      · exact List.nodup_range' _ _
    have hbound : ∀ u ∈ i :: List.range' c.subcubes.length (n ^ 3 - 1),
        u < c1.subcubes.length := by
      intro u hu
      rw [hlen1]
      rcases List.mem_cons.mp hu with h1 | h2
      · omega
      · have := (List.mem_range'_1.mp h2).2
        omega
    obtain ⟨g, hg⟩ := hurl_at_getD_mem _ c1 force _ _ hnd hmem hbound
    refine ⟨g, ?_⟩
    rw [hg, hc1subs,
      show c.subcubes.length + k = S1.length + k by rw [hS1len],
      getD_append_right_add, hA, getD_map_range' _ _ _ _ _ hk,
      show 1 + k = k + 1 by omega]

/-- Applying a translation matrix to a homogeneous column. -/
theorem mulVec_from_translation (t : Vec3) (x : Fin 4 → ℝ) :
    (mat4_from_translation t).mulVec x
      = ![x 0 + t.x * x 3, x 1 + t.y * x 3, x 2 + t.z * x 3, x 3] := by
  funext j
  fin_cases j <;>
    (simp [mat4_from_translation, Matrix.mulVec, Matrix.dotProduct, Fin.sum_univ_four]
     try ring)

/-- Applying a uniform-scale matrix to a homogeneous column. -/
theorem mulVec_scale (k : ℝ) (x : Fin 4 → ℝ) :
    (mat4_scale k).mulVec x = ![k * x 0, k * x 1, k * x 2, x 3] := by
  funext j
  fin_cases j <;>
    (simp [mat4_scale, Matrix.mulVec, Matrix.dotProduct, Fin.sum_univ_four]
     try ring)

/-- The `translate(seg) * scale(len) * translate(k, k, k)` chain applied to a
vector: `seg + len * (v + k)` per axis. -/
theorem matrix_mul_v3_ref_chain (seg : Vec3) (len k : ℝ) (v : Vec3) :
    matrix_mul_v3 (((mat4_identity.translate_v seg).scale_s len).translate_s k) v
      = ⟨seg.x + len * (v.x + k), seg.y + len * (v.y + k), seg.z + len * (v.z + k)⟩ := by
  show matrix_mul_v3
      ((((1 : Mat4) * mat4_from_translation seg) * mat4_scale len)
        * mat4_from_translation ⟨k, k, k⟩) v = _
  rw [one_mul, matrix_mul_v3, ← Matrix.mulVec_mulVec, ← Matrix.mulVec_mulVec,
    mulVec_from_translation, mulVec_scale, mulVec_from_translation]
  ext <;> (simp; ring)

/-- The sub-cell center computed by `new_pos` is `(loc + 0.5) / count` per
axis. -/
theorem subdivided_new_pos_eq (count : ℕ) (ix iy iz : ℕ) :
    Subcube.subdivided_new_pos count (ix, iy, iz)
      = ⟨((ix : ℝ) + 0.5) / count, ((iy : ℝ) + 0.5) / count, ((iz : ℝ) + 0.5) / count⟩ := by
  ext <;>
    (simp only [Subcube.subdivided_new_pos, Vec3.div_s, Vec3.add_s]
     ring)

/-- Scaling the child-interval membership test by `n` clears the
denominators. -/
theorem child_interval_le_iff (nr : ℝ) (hn0 : 0 < nr) (t i : ℝ) :
    |t - ((i + 1/2) / nr - 1/2)| ≤ (1/nr) / 2
      ↔ i ≤ (t + 1/2) * nr ∧ (t + 1/2) * nr ≤ i + 1 := by
  have hne : nr ≠ 0 := ne_of_gt hn0
  have h1 : |t - ((i + 1/2) / nr - 1/2)| * nr = |(t + 1/2) * nr - (i + 1/2)| := by
    rw [show |t - ((i + 1/2) / nr - 1/2)| * nr = |t - ((i + 1/2) / nr - 1/2)| * |nr|
        by rw [abs_of_pos hn0],
      ← abs_mul]
    congr 1
    field_simp
    ring
  have h2 : ((1/nr) / 2) * nr = 1/2 := by field_simp
  constructor
  · intro h
    have h3 := mul_le_mul_of_nonneg_right h hn0.le
    rw [h1, h2, abs_le] at h3
    constructor <;> linarith [h3.1, h3.2]
  · intro h
    refine (mul_le_mul_right hn0).mp ?_
    rw [h1, h2, abs_le]
    constructor <;> linarith [h.1, h.2]

/-- Strict version of `child_interval_le_iff`, for interiors. -/
theorem child_interval_lt_iff (nr : ℝ) (hn0 : 0 < nr) (t i : ℝ) :
    |t - ((i + 1/2) / nr - 1/2)| < (1/nr) / 2
      ↔ i < (t + 1/2) * nr ∧ (t + 1/2) * nr < i + 1 := by
  have h1 : |t - ((i + 1/2) / nr - 1/2)| * nr = |(t + 1/2) * nr - (i + 1/2)| := by
    rw [show |t - ((i + 1/2) / nr - 1/2)| * nr = |t - ((i + 1/2) / nr - 1/2)| * |nr|
        by rw [abs_of_pos hn0],
      ← abs_mul]
    congr 1
    field_simp
    ring
  have h2 : ((1/nr) / 2) * nr = 1/2 := by field_simp
  constructor
  · intro h
    have h3 := (mul_lt_mul_right hn0).mpr h
    rw [h1, h2, abs_lt] at h3
    constructor <;> linarith [h3.1, h3.2]
  · intro h
    refine (mul_lt_mul_right hn0).mp ?_
    rw [h1, h2, abs_lt]
    constructor <;> linarith [h.1, h.2]

/-- Each point of the parent interval `[-1/2, 1/2]` lies in one of the `n`
child intervals. -/
theorem axis_cover_exists (n : ℕ) (hn : 1 ≤ n) (t : ℝ) (h : |t| ≤ 1/2) :
    ∃ i : Fin n, |t - (((i : ℝ) + 1/2) / n - 1/2)| ≤ (1/(n : ℝ)) / 2 := by
  have hn0 : (0 : ℝ) < n := by exact_mod_cast hn
  rw [abs_le] at h
  set y := (t + 1/2) * n with hy
  have hy0 : 0 ≤ y := mul_nonneg (by linarith [h.1]) hn0.le
  have hyn : y ≤ n := by
    rw [hy]
    nlinarith [h.2]
  set i0 := min (n - 1) ⌊y⌋₊ with hi0
  have hkey : (i0 : ℝ) ≤ y ∧ y ≤ (i0 : ℝ) + 1 := by
    rcases le_or_lt ⌊y⌋₊ (n - 1) with hc | hc
    · have he : i0 = ⌊y⌋₊ := by omega
      rw [he]
      exact ⟨Nat.floor_le hy0, le_of_lt (Nat.lt_floor_add_one y)⟩
    · have he : i0 = n - 1 := by omega
      have hfl : n ≤ ⌊y⌋₊ := by omega
      have hny : (n : ℝ) ≤ y := (Nat.le_floor_iff hy0).mp hfl
      have hcast : ((n - 1 : ℕ) : ℝ) = (n : ℝ) - 1 := by
        push_cast [hn]
        ring
      rw [he, hcast]
      constructor <;> linarith
  refine ⟨⟨i0, by omega⟩, ?_⟩
  rw [child_interval_le_iff (n : ℝ) hn0]
  exact hkey

/-- Each child interval is contained in the parent interval. -/
theorem axis_cover_subset (n : ℕ) (t : ℝ) (i : Fin n)
    (h : |t - (((i : ℝ) + 1/2) / n - 1/2)| ≤ (1/(n : ℝ)) / 2) : |t| ≤ 1/2 := by
  have hn : 1 ≤ n := Nat.one_le_iff_ne_zero.mpr (Nat.pos_iff_ne_zero.mp i.pos)
  have hn0 : (0 : ℝ) < n := by exact_mod_cast hn
  rw [child_interval_le_iff (n : ℝ) hn0] at h
  have hi1 : ((i : ℝ) + 1) ≤ n := by
    have := i.isLt
    exact_mod_cast Nat.succ_le_of_lt this
  have hi0 : (0 : ℝ) ≤ (i : ℝ) := Nat.cast_nonneg _
  rw [abs_le]
  constructor <;> nlinarith [h.1, h.2]

/-- Child interiors along one axis are pairwise disjoint. -/
theorem axis_disjoint (n : ℕ) (t : ℝ) (i j : Fin n) (hij : i ≠ j)
    (hi : |t - (((i : ℝ) + 1/2) / n - 1/2)| < (1/(n : ℝ)) / 2)
    (hj : |t - (((j : ℝ) + 1/2) / n - 1/2)| < (1/(n : ℝ)) / 2) : False := by
  have hn : 1 ≤ n := Nat.one_le_iff_ne_zero.mpr (Nat.pos_iff_ne_zero.mp i.pos)
  have hn0 : (0 : ℝ) < n := by exact_mod_cast hn
  rw [child_interval_lt_iff (n : ℝ) hn0] at hi hj
  have hvij : (i : ℕ) ≠ (j : ℕ) := fun h => hij (Fin.ext h)
  rcases Nat.lt_or_ge (i : ℕ) (j : ℕ) with hlt | hge
  · have : ((i : ℕ) : ℝ) + 1 ≤ ((j : ℕ) : ℝ) := by exact_mod_cast Nat.succ_le_of_lt hlt
    linarith [hi.2, hj.1]
  · have hlt2 : (j : ℕ) < (i : ℕ) := Nat.lt_of_le_of_ne hge fun h => hvij h.symm
    have : ((j : ℕ) : ℝ) + 1 ≤ ((i : ℕ) : ℝ) := by exact_mod_cast Nat.succ_le_of_lt hlt2
    linarith [hj.2, hi.1]

/-- The reference segment of a child of the unit cube at the origin. -/
theorem unit_child_segment (n : ℕ) (ix iy iz : ℕ) :
    (unit_subcube.get_subdivided_subcube n (ix, iy, iz)).segment
      = ⟨((ix : ℝ) + 1/2)/n - 1/2, ((iy : ℝ) + 1/2)/n - 1/2, ((iz : ℝ) + 1/2)/n - 1/2⟩ := by
  rw [show (unit_subcube.get_subdivided_subcube n (ix, iy, iz)).segment
      = matrix_mul_v3
          (((mat4_identity.translate_v unit_subcube.segment).scale_s
              unit_subcube.subcube_length).translate_s (-0.5))
          (Subcube.subdivided_new_pos n (ix, iy, iz)) from rfl]
  rw [matrix_mul_v3_ref_chain, subdivided_new_pos_eq]
  ext <;>
    (simp only [unit_subcube, Subcube.from_segment, Vec3.zero]
     norm_num
     try ring)

/-- The edge length of a child of the unit cube. -/
theorem unit_child_length (n : ℕ) (loc : ℕ × ℕ × ℕ) :
    (unit_subcube.get_subdivided_subcube n loc).subcube_length = 1/(n : ℝ) := rfl

/-- Membership in a unit-cube child's reference box, axis by axis. -/
theorem mem_child_box_iff (n : ℕ) (i j k : ℕ) (p : Vec3) :
    p ∈ closed_box ((unit_subcube.get_subdivided_subcube n (i, j, k)).segment)
        ((unit_subcube.get_subdivided_subcube n (i, j, k)).subcube_length)
      ↔ |p.x - (((i : ℝ) + 1/2)/n - 1/2)| ≤ (1/(n : ℝ))/2
        ∧ |p.y - (((j : ℝ) + 1/2)/n - 1/2)| ≤ (1/(n : ℝ))/2
        ∧ |p.z - (((k : ℝ) + 1/2)/n - 1/2)| ≤ (1/(n : ℝ))/2 := by
  rw [unit_child_segment, unit_child_length]
  exact Iff.rfl

/-- Membership in a unit-cube child's open reference box, axis by axis. -/
theorem mem_open_child_box_iff (n : ℕ) (i j k : ℕ) (p : Vec3) :
    p ∈ open_box ((unit_subcube.get_subdivided_subcube n (i, j, k)).segment)
        ((unit_subcube.get_subdivided_subcube n (i, j, k)).subcube_length)
      ↔ |p.x - (((i : ℝ) + 1/2)/n - 1/2)| < (1/(n : ℝ))/2
        ∧ |p.y - (((j : ℝ) + 1/2)/n - 1/2)| < (1/(n : ℝ))/2
        ∧ |p.z - (((k : ℝ) + 1/2)/n - 1/2)| < (1/(n : ℝ))/2 := by
  rw [unit_child_segment, unit_child_length]
  exact Iff.rfl

/-- Membership in the parent unit box. -/
theorem mem_parent_box_iff (p : Vec3) :
    p ∈ closed_box Vec3.zero 1 ↔ |p.x| ≤ 1/2 ∧ |p.y| ≤ 1/2 ∧ |p.z| ≤ 1/2 := by
  simp [closed_box, Vec3.zero]

/-- C6: a child produced by `get_subdivided_subcube(count, (ix, iy, iz))`
has edge `size / count`, copies `vel`/`angular_momentum`/`orientation`
unchanged, and derives `segment` and `pos` by pushing the sub-cell center
`((ix + 0.5)/n, (iy + 0.5)/n, (iz + 0.5)/n)` through the reference matrix
and the `-0.5`-offset model matrix; for the unit cube at the origin the
`n³` children's reference boxes tile the parent box exactly, with pairwise
disjoint interiors. -/
theorem subdivide_children_spec :
    (∀ (sc : Subcube) (n : ℕ) (ix iy iz : ℕ),
        (sc.get_subdivided_subcube n (ix, iy, iz)).subcube_length = sc.subcube_length / n
        ∧ (sc.get_subdivided_subcube n (ix, iy, iz)).vel = sc.vel
        ∧ (sc.get_subdivided_subcube n (ix, iy, iz)).angular_momentum = sc.angular_momentum
        ∧ (sc.get_subdivided_subcube n (ix, iy, iz)).orientation = sc.orientation
        ∧ (sc.get_subdivided_subcube n (ix, iy, iz)).segment
            = matrix_mul_v3
                (((mat4_identity.translate_v sc.segment).scale_s
                    sc.subcube_length).translate_s (-0.5))
                ⟨((ix : ℝ) + 0.5)/n, ((iy : ℝ) + 0.5)/n, ((iz : ℝ) + 0.5)/n⟩
        ∧ (sc.get_subdivided_subcube n (ix, iy, iz)).pos
            = matrix_mul_v3 (sc.get_model_matrix.translate_s (-0.5))
                ⟨((ix : ℝ) + 0.5)/n, ((iy : ℝ) + 0.5)/n, ((iz : ℝ) + 0.5)/n⟩)
    ∧ ∀ n : ℕ, 1 ≤ n →
        (⋃ l : Fin n × Fin n × Fin n,
              closed_box
                ((unit_subcube.get_subdivided_subcube n
                    ((l.1 : ℕ), (l.2.1 : ℕ), (l.2.2 : ℕ))).segment)
                ((unit_subcube.get_subdivided_subcube n
                    ((l.1 : ℕ), (l.2.1 : ℕ), (l.2.2 : ℕ))).subcube_length))
          = closed_box Vec3.zero 1
        ∧ ∀ l m : Fin n × Fin n × Fin n, l ≠ m →
            open_box
                ((unit_subcube.get_subdivided_subcube n
                    ((l.1 : ℕ), (l.2.1 : ℕ), (l.2.2 : ℕ))).segment)
                ((unit_subcube.get_subdivided_subcube n
                    ((l.1 : ℕ), (l.2.1 : ℕ), (l.2.2 : ℕ))).subcube_length)
              ∩ open_box
                  ((unit_subcube.get_subdivided_subcube n
                      ((m.1 : ℕ), (m.2.1 : ℕ), (m.2.2 : ℕ))).segment)
                  ((unit_subcube.get_subdivided_subcube n
                      ((m.1 : ℕ), (m.2.1 : ℕ), (m.2.2 : ℕ))).subcube_length)
              = ∅ := by
  constructor
  · intro sc n ix iy iz
    refine ⟨rfl, rfl, rfl, rfl, ?_, ?_⟩
    · rw [← subdivided_new_pos_eq]
      rfl
    · rw [← subdivided_new_pos_eq]
      rfl
  · intro n hn
    constructor
    · ext p
      simp only [Set.mem_iUnion, mem_child_box_iff, mem_parent_box_iff]
      constructor
      · rintro ⟨l, hx, hy, hz⟩
        exact ⟨axis_cover_subset n p.x l.1 hx, axis_cover_subset n p.y l.2.1 hy,
          axis_cover_subset n p.z l.2.2 hz⟩
      · rintro ⟨hx, hy, hz⟩
        obtain ⟨i, hi⟩ := axis_cover_exists n hn p.x hx
        obtain ⟨j, hj⟩ := axis_cover_exists n hn p.y hy
        obtain ⟨k, hk⟩ := axis_cover_exists n hn p.z hz
        exact ⟨⟨i, j, k⟩, hi, hj, hk⟩
    · intro l m hlm
      rw [Set.eq_empty_iff_forall_not_mem]
      rintro p ⟨hpl, hpm⟩
      rw [mem_open_child_box_iff] at hpl hpm
      have hcomp : l.1 ≠ m.1 ∨ l.2.1 ≠ m.2.1 ∨ l.2.2 ≠ m.2.2 := by
        by_contra hc
        push_neg at hc
        exact hlm (Prod.ext_iff.mpr ⟨hc.1, Prod.ext_iff.mpr ⟨hc.2.1, hc.2.2⟩⟩)
      rcases hcomp with h | h | h
      · exact axis_disjoint n p.x l.1 m.1 h hpl.1 hpm.1
      · exact axis_disjoint n p.y l.2.1 m.2.1 h hpl.2.1 hpm.2.1
      · exact axis_disjoint n p.z l.2.2 m.2.2 h hpl.2.2 hpm.2.2

section FoldSmallest

variable {β α : Type} (cand : β → Option α) (key : α → ℝ)

/-- `set_if_smallest` on an empty accumulator adopts the value. -/
theorem set_if_smallest_none_eq (v : α) : set_if_smallest key none v = some v := rfl

/-- `set_if_smallest` on a full accumulator keeps the strictly smaller
value (ties keep the incumbent). -/
theorem set_if_smallest_some_eq (w v : α) :
    set_if_smallest key (some w) v = if key v < key w then some v else some w := rfl

/-- The running minimum is `none` exactly when it started `none` and no
element contributed a candidate. -/
theorem fold_smallest_eq_none_iff :
    ∀ (l : List β) (acc : Option α),
      fold_smallest cand key l acc = none ↔ acc = none ∧ ∀ b ∈ l, cand b = none := by
  intro l
  induction l with
  | nil =>
      intro acc
      simp [fold_smallest]
  | cons b rest ih =>
      intro acc
      rw [fold_smallest, ih]
      cases hcb : cand b with
      | none =>
          constructor
          · rintro ⟨h1, h2⟩
            refine ⟨h1, fun x hx => ?_⟩
            rcases List.mem_cons.mp hx with h3 | h3
            · rw [h3]; exact hcb
            · exact h2 x h3
          · rintro ⟨h1, h2⟩
            exact ⟨h1, fun x hx => h2 x (List.mem_cons_of_mem b hx)⟩
      | some v =>
          constructor
          · rintro ⟨h1, _⟩
            exfalso
            cases acc with
            | none => exact Option.noConfusion h1
            | some w =>
                simp only [set_if_smallest_some_eq] at h1
                by_cases hlt : key v < key w
                · rw [if_pos hlt] at h1; exact Option.noConfusion h1
                · rw [if_neg hlt] at h1; exact Option.noConfusion h1
          · rintro ⟨_, h2⟩
            exact absurd hcb (by rw [h2 b (List.mem_cons_self b rest)]; exact
              fun h => Option.noConfusion h)

/-- The value the running minimum settles on is no larger than the starting
accumulator and than every candidate. -/
theorem fold_smallest_some_min :
    ∀ (l : List β) (acc : Option α) (v : α), fold_smallest cand key l acc = some v →
      (∀ w, acc = some w → key v ≤ key w)
      ∧ ∀ b ∈ l, ∀ w, cand b = some w → key v ≤ key w := by
  intro l
  induction l with
  | nil =>
      intro acc v h
      refine ⟨fun w hw => ?_, fun b hb => absurd hb (List.not_mem_nil b)⟩
      rw [hw] at h
      cases h
      exact le_refl _
  | cons b rest ih =>
      intro acc v h
      rw [fold_smallest] at h
      constructor
      · intro w hw
        subst hw
        cases hcb : cand b with
        | none =>
            simp only [hcb] at h
            exact (ih _ v h).1 w rfl
        | some u =>
            simp only [hcb, set_if_smallest_some_eq] at h
            by_cases hlt : key u < key w
            · rw [if_pos hlt] at h
              exact le_of_lt (lt_of_le_of_lt ((ih _ v h).1 u rfl) hlt)
            · rw [if_neg hlt] at h
              exact (ih _ v h).1 w rfl
      · intro x hx w hw
        rcases List.mem_cons.mp hx with h3 | h3
        · subst h3
          simp only [hw] at h
          cases acc with
          | none =>
              rw [set_if_smallest_none_eq] at h
              exact (ih _ v h).1 w rfl
          | some u =>
              rw [set_if_smallest_some_eq] at h
              by_cases hlt : key w < key u
              · rw [if_pos hlt] at h
                exact (ih _ v h).1 w rfl
              · rw [if_neg hlt] at h
                exact le_trans ((ih _ v h).1 u rfl) (not_lt.mp hlt)
        · cases hcb : cand b with
          | none =>
              simp only [hcb] at h
              exact (ih _ v h).2 x h3 w hw
          | some u =>
              simp only [hcb] at h
              exact (ih _ v h).2 x h3 w hw

/-- The running minimum's winner is the accumulator, or the first element
whose candidate strictly beat everything before it. -/
theorem fold_smallest_some_first :
    ∀ (l : List β) (acc : Option α) (v : α), fold_smallest cand key l acc = some v →
      acc = some v
      ∨ ∃ l1 b l2, l = l1 ++ b :: l2 ∧ cand b = some v
          ∧ (∀ w, acc = some w → key v < key w)
          ∧ ∀ x ∈ l1, ∀ w, cand x = some w → key v < key w := by
  intro l
  induction l with
  | nil => intro acc v h; exact Or.inl h
  | cons b rest ih =>
      intro acc v h
      rw [fold_smallest] at h
      cases hcb : cand b with
      | none =>
          simp only [hcb] at h
          rcases ih _ v h with h1 | ⟨l1, x, l2, hsplit, hcx, hbacc, hl1⟩
          · exact Or.inl h1
          · refine Or.inr ⟨b :: l1, x, l2, by rw [hsplit]; rfl, hcx, hbacc, ?_⟩
            intro y hy w hw
            rcases List.mem_cons.mp hy with h3 | h3
            · rw [h3, hcb] at hw; exact Option.noConfusion hw
            · exact hl1 y h3 w hw
      | some u =>
          simp only [hcb] at h
          cases acc with
          | none =>
              rw [set_if_smallest_none_eq] at h
              rcases ih _ v h with h1 | ⟨l1, x, l2, hsplit, hcx, hbacc, hl1⟩
              · cases h1
                exact Or.inr ⟨[], b, rest, rfl, hcb, fun w hw => Option.noConfusion hw,
                  fun y hy => absurd hy (List.not_mem_nil y)⟩
              · refine Or.inr ⟨b :: l1, x, l2, by rw [hsplit]; rfl, hcx, fun w hw =>
                  Option.noConfusion hw, ?_⟩
                intro y hy w hw
                rcases List.mem_cons.mp hy with h3 | h3
                · rw [h3, hcb] at hw
                  cases hw
                  exact hbacc u rfl
                · exact hl1 y h3 w hw
          | some z =>
              rw [set_if_smallest_some_eq] at h
              by_cases hlt : key u < key z
              · rw [if_pos hlt] at h
                rcases ih _ v h with h1 | ⟨l1, x, l2, hsplit, hcx, hbacc, hl1⟩
                · cases h1
                  exact Or.inr ⟨[], b, rest, rfl, hcb,
                    fun w hw => by cases hw; exact hlt,
                    fun y hy => absurd hy (List.not_mem_nil y)⟩
                · refine Or.inr ⟨b :: l1, x, l2, by rw [hsplit]; rfl, hcx, ?_, ?_⟩
                  · intro w hw
                    cases hw
                    exact lt_trans (hbacc u rfl) hlt
                  · intro y hy w hw
                    rcases List.mem_cons.mp hy with h3 | h3
                    · rw [h3, hcb] at hw
                      cases hw
                      exact hbacc u rfl
                    · exact hl1 y h3 w hw
              · rw [if_neg hlt] at h
                rcases ih _ v h with h1 | ⟨l1, x, l2, hsplit, hcx, hbacc, hl1⟩
                · exact Or.inl h1
                · refine Or.inr ⟨b :: l1, x, l2, by rw [hsplit]; rfl, hcx, hbacc, ?_⟩
                  intro y hy w hw
                  rcases List.mem_cons.mp hy with h3 | h3
                  · rw [h3, hcb] at hw
                    cases hw
                    exact lt_of_lt_of_le (hbacc z rfl) (not_lt.mp hlt)
                  · exact hl1 y h3 w hw

end FoldSmallest

/-- Splitting `List.range n` around an element recovers its position: the
element is the prefix's length, and every smaller index lies in the
prefix. -/
theorem range_split_spec (n : ℕ) (l1 : List ℕ) (b : ℕ) (l2 : List ℕ)
    (h : List.range n = l1 ++ b :: l2) : b = l1.length ∧ ∀ j, j < l1.length → j ∈ l1 := by
  have hlen : n = l1.length + (l2.length + 1) := by
    have h2 := congrArg List.length h
    simp only [List.length_range, List.length_append, List.length_cons] at h2
    omega
  constructor
  · have h1 : (List.range n)[l1.length]? = some b := by
      rw [h, List.getElem?_append_right (le_refl l1.length), Nat.sub_self]
      exact List.getElem?_cons_zero
    rw [List.getElem?_range (by omega)] at h1
    exact (Option.some.inj h1).symm
  · intro j hj
    have h1 : (List.range n)[j]? = l1[j]? := by
      rw [h, List.getElem?_append_left (by omega)]
    rw [List.getElem?_range (by omega)] at h1
    exact List.getElem?_mem h1.symm

/-- A subcube contributes no candidate exactly when it has no world hit. -/
theorem ray_candidate_none_iff (c : Cube) (ray : Ray) (i : ℕ) :
    c.ray_candidate ray i = none ↔ c.world_hit ray i = none := by
  rw [Cube.ray_candidate, Cube.world_hit]
  cases intersects_with_unit_cube
      (subcube_local_ray (c.subcubes.getD i default) ray) <;> simp

/-- A subcube's candidate carries its own index, itself, and its world-hit
distance. -/
theorem ray_candidate_components (c : Cube) (ray : Ray) (i : ℕ) (t : ℕ × Subcube × ℝ)
    (h : c.ray_candidate ray i = some t) :
    t.1 = i ∧ t.2.1 = c.subcubes.getD i default ∧ c.world_hit ray i = some t.2.2 := by
  rw [Cube.ray_candidate] at h
  rw [Cube.world_hit]
  cases hI : intersects_with_unit_cube
      (subcube_local_ray (c.subcubes.getD i default) ray) with
  | none => rw [hI] at h; exact Option.noConfusion h
  | some dist =>
      rw [hI] at h
      have ht : t = (i, c.subcubes.getD i default,
          dist * (c.subcubes.getD i default).subcube_length) := (Option.some.inj h).symm
      rw [ht]
      exact ⟨rfl, rfl, rfl⟩

/-- A world hit always comes from the corresponding candidate. -/
theorem world_hit_some_candidate (c : Cube) (ray : Ray) (j : ℕ) (e : ℝ)
    (h : c.world_hit ray j = some e) :
    c.ray_candidate ray j = some (j, c.subcubes.getD j default, e) := by
  rw [Cube.world_hit] at h
  rw [Cube.ray_candidate]
  cases hI : intersects_with_unit_cube
      (subcube_local_ray (c.subcubes.getD j default) ray) with
  | none => rw [hI] at h; exact Option.noConfusion h
  | some dist =>
      rw [hI] at h
      have he : dist * (c.subcubes.getD j default).subcube_length = e := Option.some.inj h
      simp only [Option.map_some']
      rw [he]

/-- The closest-hit fold's winner: in bounds, carrying its own subcube and
world distance, no farther than any hit, and strictly closer than every
hit at a smaller index. -/
theorem fold_ray_some (c : Cube) (ray : Ray) (t : ℕ × Subcube × ℝ)
    (hF : fold_smallest (c.ray_candidate ray) (fun u => u.2.2)
        (List.range c.subcubes.length) none = some t) :
    t.1 < c.subcubes.length ∧ t.2.1 = c.subcubes.getD t.1 default
    ∧ c.world_hit ray t.1 = some t.2.2
    ∧ (∀ j, j < c.subcubes.length → ∀ e, c.world_hit ray j = some e → t.2.2 ≤ e)
    ∧ ∀ j, j < t.1 → ∀ e, c.world_hit ray j = some e → t.2.2 < e := by
  have hmin := fold_smallest_some_min (c.ray_candidate ray) (fun u => u.2.2) _ _ _ hF
  rcases fold_smallest_some_first (c.ray_candidate ray) (fun u => u.2.2) _ _ _ hF with
    h1 | ⟨l1, x, l2, hsplit, hcx, _, hl1⟩
  · exact Option.noConfusion h1
  · obtain ⟨ht1, ht2, ht3⟩ := ray_candidate_components c ray x t hcx
    obtain ⟨hx_eq, hmem_l1⟩ := range_split_spec _ _ _ _ hsplit
    have hxlen : x < c.subcubes.length := by
      have hx_mem : x ∈ List.range c.subcubes.length := by
        rw [hsplit]
        exact List.mem_append_right _ (List.mem_cons_self _ _)
      exact List.mem_range.mp hx_mem
    rw [ht1]
    refine ⟨hxlen, ht2, ht3, ?_, ?_⟩
    · intro j hj e he
      exact hmin.2 j (List.mem_range.mpr hj) _ (world_hit_some_candidate c ray j e he)
    · intro j hj e he
      have hj_mem : j ∈ l1 := hmem_l1 j (by omega)
      exact hl1 j hj_mem _ (world_hit_some_candidate c ray j e he)

/-- `get_subcube_from_ray` returns `some (i, sc)` exactly when the
closest-hit fold settles on a triple extending `(i, sc)`. -/
theorem get_subcube_from_ray_some_inv (c : Cube) (ray : Ray) (i : ℕ) (sc : Subcube)
    (h : c.get_subcube_from_ray ray = some (i, sc)) :
    ∃ d, fold_smallest (c.ray_candidate ray) (fun u => u.2.2)
        (List.range c.subcubes.length) none = some (i, sc, d) := by
  rw [Cube.get_subcube_from_ray] at h
  cases hF : fold_smallest (c.ray_candidate ray) (fun u => u.2.2)
      (List.range c.subcubes.length) none with
  | none => rw [hF] at h; exact Option.noConfusion h
  | some t =>
      obtain ⟨a, b, d⟩ := t
      rw [hF] at h
      have h2 : (a, b) = (i, sc) := Option.some.inj h
      have ha : a = i := congrArg Prod.fst h2
      have hb : b = sc := congrArg Prod.snd h2
      refine ⟨d, ?_⟩
      rw [ha, hb]

/-- C7: `get_subcube_from_ray` misses exactly when no subcube's local ray
hits a bounded face; a returned `(index, subcube)` is the in-bounds
collection entry whose scaled world distance is minimal among all hits;
and per piece, `intersects_with_unit_cube` is exactly the minimum of the
accepted per-plane bounded-face distances. -/
theorem get_subcube_from_ray_spec (c : Cube) (ray : Ray) :
    (c.get_subcube_from_ray ray = none
      ↔ ∀ i, i < c.subcubes.length → c.world_hit ray i = none)
    ∧ (∀ i sc, c.get_subcube_from_ray ray = some (i, sc) →
        i < c.subcubes.length ∧ sc = c.subcubes.getD i default
        ∧ ∃ d, c.world_hit ray i = some d
            ∧ ∀ j, j < c.subcubes.length → ∀ e, c.world_hit ray j = some e → d ≤ e)
    ∧ ∀ r : Ray,
        (intersects_with_unit_cube r = none
          ↔ ∀ p ∈ unitCubePlanes, plane_candidate r p = none)
        ∧ ∀ d, intersects_with_unit_cube r = some d →
            (∃ p ∈ unitCubePlanes, plane_candidate r p = some d)
            ∧ ∀ p ∈ unitCubePlanes, ∀ e, plane_candidate r p = some e → d ≤ e := by
  refine ⟨?_, ?_, ?_⟩
  · cases hF : fold_smallest (c.ray_candidate ray) (fun u => u.2.2)
        (List.range c.subcubes.length) none with
    | none =>
        have hget : c.get_subcube_from_ray ray = none := by
          rw [Cube.get_subcube_from_ray, hF]
        have h1 := (fold_smallest_eq_none_iff (c.ray_candidate ray)
          (fun u => u.2.2) _ none).mp hF
        rw [hget]
        constructor
        · intro _ i hi
          exact (ray_candidate_none_iff c ray i).mp (h1.2 i (List.mem_range.mpr hi))
        · intro _; rfl
    | some t =>
        obtain ⟨a, b, d⟩ := t
        have hget : c.get_subcube_from_ray ray = some (a, b) := by
          rw [Cube.get_subcube_from_ray, hF]
        have hspec := fold_ray_some c ray (a, b, d) hF
        rw [hget]
        constructor
        · intro h2
          exact Option.noConfusion h2
        · intro hall
          have hw : c.world_hit ray a = some d := hspec.2.2.1
          have h3 := hall a hspec.1
          rw [hw] at h3
          exact Option.noConfusion h3
  · intro i sc h
    obtain ⟨d, hF⟩ := get_subcube_from_ray_some_inv c ray i sc h
    have hspec := fold_ray_some c ray (i, sc, d) hF
    exact ⟨hspec.1, hspec.2.1, d, hspec.2.2.1, hspec.2.2.2.1⟩
  · intro r
    constructor
    · rw [intersects_with_unit_cube,
        fold_smallest_eq_none_iff (plane_candidate r) id unitCubePlanes none]
      simp
    · intro d hI
      rw [intersects_with_unit_cube] at hI
      have hmin := fold_smallest_some_min (plane_candidate r) id _ _ _ hI
      rcases fold_smallest_some_first (plane_candidate r) id _ _ _ hI with
        h1 | ⟨l1, x, l2, hsplit, hcx, _, _⟩
      · exact Option.noConfusion h1
      · refine ⟨⟨x, ?_, hcx⟩, fun p hp e he => hmin.2 p hp e he⟩
        rw [hsplit]
        exact List.mem_append_right _ (List.mem_cons_self _ _)

/-- C10: when several subcubes hit the ray at the same smallest world
distance, the returned index beats every smaller index strictly, so the
winner is the lowest-index minimizer. -/
theorem get_subcube_from_ray_tie_break (c : Cube) (ray : Ray) (i : ℕ) (sc : Subcube)
    (h : c.get_subcube_from_ray ray = some (i, sc)) :
    ∃ d, c.world_hit ray i = some d
      ∧ ∀ j, j < i → ∀ e, c.world_hit ray j = some e → d < e := by
  obtain ⟨d, hF⟩ := get_subcube_from_ray_some_inv c ray i sc h
  have hspec := fold_ray_some c ray (i, sc, d) hF
  exact ⟨d, hspec.2.2.1, fun j hj e he => hspec.2.2.2.2 j hj e he⟩

/-- C10 (witness): the tie-break theorem applied to the fresh cube and the
concrete ray leaving it through the `z = -0.5` face. -/
theorem get_subcube_from_ray_tie_break_witness :
    ∃ d, fresh_cube.world_hit down_z_ray 0 = some d
      ∧ ∀ j, j < 0 → ∀ e, fresh_cube.world_hit down_z_ray j = some e → d < e := by
  refine get_subcube_from_ray_tie_break fresh_cube down_z_ray 0 unit_subcube ?_
  norm_num [Cube.get_subcube_from_ray, Cube.ray_candidate, fold_smallest, set_if_smallest,
    unitCubePlanes, plane_candidate, planeRayIntersection, subcube_local_ray,
    intersects_with_unit_cube, fresh_cube, unit_subcube, Subcube.from_segment,
    Quat.invert, Quat.conjugate, Quat.magnitude2, Quat.div_s, Quat.identity, Quat.mul_v,
    Vec3.dot, Vec3.cross, Vec3.add_v, Vec3.mul_s, Vec3.div_s, Vec3.neg, Vec3.sub_v,
    Vec3.zero, Vec3.length, down_z_ray, List.range_succ, List.getD]

/-- C7 (witness): the concrete ray pointing away from the fresh cube
produces no hit. -/
theorem get_subcube_from_ray_spec_witness :
    fresh_cube.get_subcube_from_ray away_ray = none := by
  refine (get_subcube_from_ray_spec fresh_cube away_ray).1.mpr ?_
  intro i hi
  have hi0 : i = 0 := by
    simp only [fresh_cube, List.length_cons, List.length_nil] at hi
    omega
  subst hi0
  norm_num [Cube.world_hit, unitCubePlanes, plane_candidate, planeRayIntersection,
    subcube_local_ray, intersects_with_unit_cube, fold_smallest, set_if_smallest,
    fresh_cube, unit_subcube, Subcube.from_segment,
    Quat.invert, Quat.conjugate, Quat.magnitude2, Quat.div_s, Quat.identity, Quat.mul_v,
    Vec3.dot, Vec3.cross, Vec3.add_v, Vec3.mul_s, Vec3.div_s, Vec3.neg, Vec3.sub_v,
    Vec3.zero, Vec3.length, away_ray, List.getD]

/-- C5 (witness): exploding the fresh cube's single subcube with
`subdivide_count = 2` grows the collection by exactly `7`. -/
theorem explode_subcube_spec_witness :
    (fresh_cube.explode_subcube 0 4 2).subcubes.length
      = fresh_cube.subcubes.length + (2 ^ 3 - 1) :=
  (explode_subcube_spec fresh_cube 0 4 2 (by simp [fresh_cube]) (by omega)).1

/-- C2 (witness): the timeline evaluated on the concrete
`rearranging_cube` with one `1`-second step followed by another. -/
theorem rearranging_timeline_witness :
    (rearranging_cube.step_seq [1]).state
      = CubeState.rearranging (([(1 : ℝ)]).sum) CubeState.simulating
    ∧ ((rearranging_cube.step_seq [1]).step 1).state = CubeState.simulating := by
  have h := rearranging_timeline CubeState.simulating rearranging_cube rfl [1]
    (by intro f hf; rw [List.mem_singleton] at hf; subst hf; norm_num)
    (by rw [List.sum_singleton]; norm_num)
  exact ⟨h.1, (h.2.2 1 (by norm_num) (by rw [List.sum_singleton]; norm_num)).1⟩

end Cubes
